import Mathlib

/-!
Verification of the lease-based identifier allocator (sequential-id-generator).

The Rust core keeps, behind one mutex, an `AppState` with
  * `timeout : i64` — lease duration in milliseconds,
  * `expires : BTreeMap<usize, i64>` — the Lease Table (identifier → expiry),
  * `availables : VecDeque<usize>` — the Available Queue (front = next issued),
  * `time_provider : &dyn TimeProvider` — the injected clock.

Shallow embedding choices:
  * The `BTreeMap` is a strictly-key-sorted association list `List (Nat × Int)`;
    iteration order of the list is the map's ascending iteration order, and
    `SortedMap` below is the representation invariant the real map maintains.
  * The `VecDeque` is a `List Nat` whose head is the queue's front.
  * The time provider is a trace `clock : Nat → Int` of successive readings
    together with a counter `tick` of how many readings were taken so far;
    each call of `unix_ts_ms` returns `clock tick` and bumps `tick`.  A
    `FixedTimeProvider` is a constant trace; the live system clock is an
    arbitrary trace.  This keeps the two separate clock reads inside
    `get_next_impl` (one in `clear_expired`, one for the new expiry) visible.
  * Rust's `Result<T, usize>` becomes `Except Nat T`; mutation of the state
    behind the `MutexGuard` becomes explicit state passing.
-/

/-- The state behind the mutex (`struct AppState` in `main.rs`), with the time
provider modelled as a trace of clock readings plus a read counter. -/
structure AppState where
  timeout : Int
  expires : List (Nat × Int)
  availables : List Nat
  clock : Nat → Int
  tick : Nat

def ERROR_CODE_NO_ID_AVAILBLE : Nat := 1
def ERROR_CODE_ID_EXPIRED : Nat := 2
def ERROR_CODE_ID_NONEXISTENT : Nat := 3

/-- `BTreeMap::get`: the value stored at key `k`, if any. -/
def btreeGet (k : Nat) : List (Nat × Int) → Option Int
  | [] => none
  | (k', v') :: rest => if k = k' then some v' else btreeGet k rest

/-- `BTreeMap::insert`: store `v` at key `k`, replacing an existing entry and
otherwise keeping the list sorted by key. -/
def btreeInsert (k : Nat) (v : Int) : List (Nat × Int) → List (Nat × Int)
  | [] => [(k, v)]
  | (k', v') :: rest =>
    if k < k' then (k, v) :: (k', v') :: rest
    else if k = k' then (k, v) :: rest
    else (k', v') :: btreeInsert k v rest

/-- `BTreeMap::remove`: drop the entry at key `k` (keys are unique in a map,
so at most one entry is dropped). -/
def btreeRemove (k : Nat) : List (Nat × Int) → List (Nat × Int)
  | [] => []
  | (k', v') :: rest => if k = k' then rest else (k', v') :: btreeRemove k rest

/-- The second loop of `clear_expired`: for each collected id, remove it from
the Lease Table and push it onto the back of the Available Queue. -/
def reclaim (ids : List Nat) (s : AppState) : AppState :=
  ids.foldl
    (fun t id =>
      { t with expires := btreeRemove id t.expires,
               availables := t.availables ++ [id] })
    s

/-- `fn clear_expired`: read `now` from the time provider, collect (in the
map's ascending key order) every id whose expiry is `≤ now`, move each such
entry from the Lease Table to the back of the Available Queue, and return how
many were reclaimed. -/
def clear_expired (s : AppState) : Nat × AppState :=
  let now := s.clock s.tick
  let s1 : AppState := { s with tick := s.tick + 1 }
  let expireds := (s1.expires.filter (fun p => decide (p.2 ≤ now))).map Prod.fst
  (expireds.length, reclaim expireds s1)

/-- `fn get_next_impl`: sweep expired leases, then pop the front of the
Available Queue; on empty fail with `ERROR_CODE_NO_ID_AVAILBLE`, otherwise
read `now` again, lease the id until `now + timeout` and return the pair. -/
def get_next_impl (s : AppState) : Except Nat (Nat × Int) × AppState :=
  let s1 := (clear_expired s).2
  match s1.availables with
  | [] => (Except.error ERROR_CODE_NO_ID_AVAILBLE, s1)
  | id_next :: rest =>
    let now := s1.clock s1.tick
    let expire := now + s1.timeout
    (Except.ok (id_next, expire),
     { s1 with tick := s1.tick + 1,
               availables := rest,
               expires := btreeInsert id_next expire s1.expires })

/-- `fn get_heartbeat_impl`: look `id` up in the Lease Table; absent fails
with `ERROR_CODE_ID_NONEXISTENT`; present and still live (expiry `> now`)
extends the lease to `now + timeout` and returns the new expiry; present but
lapsed (expiry `≤ now`) fails with `ERROR_CODE_ID_EXPIRED` (leaving the entry
in place). -/
def get_heartbeat_impl (id : Nat) (s : AppState) : Except Nat Int × AppState :=
  match btreeGet id s.expires with
  | some expire =>
    let now := s.clock s.tick
    let s1 : AppState := { s with tick := s.tick + 1 }
    if expire > now then
      let expire := now + s1.timeout
      (Except.ok expire, { s1 with expires := btreeInsert id expire s1.expires })
    else
      (Except.error ERROR_CODE_ID_EXPIRED, s1)
  | none => (Except.error ERROR_CODE_ID_NONEXISTENT, s)

/-- The state built in `main`: Lease Table empty, Available Queue holding
`id_min..=id_max` in ascending order, no clock readings taken yet. -/
def initState (id_min id_max : Nat) (timeout : Int) (clock : Nat → Int) : AppState :=
  { timeout := timeout
    expires := []
    availables := List.range' id_min (id_max + 1 - id_min)
    clock := clock
    tick := 0 }

/-- Keys of the Lease Table, in iteration order. -/
def keys (m : List (Nat × Int)) : List Nat := m.map Prod.fst

/-- Representation invariant of `BTreeMap` as a sorted association list:
keys strictly increase along the list. -/
def SortedMap (m : List (Nat × Int)) : Prop := (keys m).Pairwise (· < ·)

/-- The closed-partition invariant of the spec for the pool `[mn, mx]`:
no identifier occurs twice across the Available Queue and the Lease Table,
and the identifiers present are exactly those of `[mn, mx]`. -/
def Partition (mn mx : Nat) (s : AppState) : Prop :=
  (s.availables ++ keys s.expires).Nodup ∧
  ∀ id : Nat, (id ∈ s.availables ∨ id ∈ keys s.expires) ↔ (mn ≤ id ∧ id ≤ mx)

/-- The full state invariant: the `BTreeMap` representation invariant
together with the closed-partition invariant. -/
def PoolInv (mn mx : Nat) (s : AppState) : Prop :=
  SortedMap s.expires ∧ Partition mn mx s

/-- `n` successive calls of `get_next_impl`, collecting the results. -/
def acquireN : Nat → AppState → List (Except Nat (Nat × Int)) × AppState
  | 0, s => ([], s)
  | n + 1, s =>
    let r := get_next_impl s
    let rs := acquireN n r.2
    (r.1 :: rs.1, rs.2)

/-- Removal of a list of keys from the Lease Table, in order: the effect of
the second loop of `clear_expired` on the `expires` field alone. -/
def removeAll (ks : List Nat) (m : List (Nat × Int)) : List (Nat × Int) :=
  ks.foldl (fun t id => btreeRemove id t) m

/-- The pool state reached after `k` successful acquisitions from a fresh
pool `[mn, mn + N - 1]`: identifiers `mn..mn+k-1` are leased (the lease of
identifier `i` was stamped with the clock's reading number `2*(i-mn)+1`),
identifiers `mn+k..mn+N-1` are still queued, and `2*k` clock readings have
been taken. -/
def c6State (mn k N : Nat) (clock : Nat → Int) (t : Int) : AppState :=
  { timeout := t
    expires := (List.range' mn k).map (fun i => (i, clock (2 * (i - mn) + 1) + t))
    availables := List.range' (mn + k) (N - k)
    clock := clock
    tick := 2 * k }

section Lemmas

/-- `reclaim` appends the reclaimed ids to the queue and removes them from
the table; it touches nothing else. -/
theorem reclaim_eq (ks : List Nat) (s : AppState) :
    reclaim ks s = { s with expires := removeAll ks s.expires,
                            availables := s.availables ++ ks } := by
  induction ks generalizing s with
  | nil => simp [reclaim, removeAll]
  | cons k ks ih =>
      show reclaim ks _ = _
      rw [ih]
      simp [removeAll]

theorem removeAll_cons_of_not_mem {k : Nat} {ks : List Nat} (v : Int)
    (m : List (Nat × Int)) (h : k ∉ ks) :
    removeAll ks ((k, v) :: m) = (k, v) :: removeAll ks m := by
  induction ks generalizing m with
  | nil => rfl
  | cons i ks ih =>
      have hik : i ≠ k := fun e => h (e ▸ List.mem_cons_self i ks)
      show removeAll ks (btreeRemove i ((k, v) :: m)) = _
      rw [show btreeRemove i ((k, v) :: m) = (k, v) :: btreeRemove i m by
            simp [btreeRemove, hik]]
      exact ih _ (fun hm => h (List.mem_cons_of_mem i hm))

/-- On a sorted table, removing exactly the keys of the entries selected by
`expiry ≤ now` (taken in iteration order) leaves the entries with
`expiry > now`, in their original order. -/
theorem removeAll_filter (now : Int) (m : List (Nat × Int)) (h : SortedMap m) :
    removeAll ((m.filter (fun q => decide (q.2 ≤ now))).map Prod.fst) m
      = m.filter (fun q => !decide (q.2 ≤ now)) := by
  induction m with
  | nil => rfl
  | cons p m ih =>
      obtain ⟨k, v⟩ := p
      rw [SortedMap, keys, List.map_cons, List.pairwise_cons] at h
      obtain ⟨hlt, hs⟩ := h
      by_cases hv : v ≤ now
      · rw [List.filter_cons_of_pos (by simpa using hv), List.map_cons,
            List.filter_cons_of_neg (by simpa using hv)]
        show removeAll _ (btreeRemove k ((k, v) :: m)) = _
        rw [show btreeRemove k ((k, v) :: m) = m by simp [btreeRemove]]
        exact ih hs
      · have hnotmem : k ∉ (m.filter (fun q => decide (q.2 ≤ now))).map Prod.fst := by
          intro hk
          rcases List.mem_map.1 hk with ⟨q, hq, hq1⟩
          have : k < q.1 := hlt q.1 (List.mem_map_of_mem Prod.fst (List.mem_of_mem_filter hq))
          omega
        rw [List.filter_cons_of_neg (by simpa using hv),
            List.filter_cons_of_pos (by simpa using hv),
            removeAll_cons_of_not_mem v m hnotmem, ih hs]

/-- Full characterization of one sweep on a sorted table: the entries with
`expiry ≤ now` leave the table, their keys go to the back of the queue in
iteration (ascending-key) order, and the count of them is returned. -/
theorem clear_expired_spec (s : AppState) (h : SortedMap s.expires) :
    clear_expired s =
      ((s.expires.filter (fun q => decide (q.2 ≤ s.clock s.tick))).length,
       { s with tick := s.tick + 1,
                expires := s.expires.filter (fun q => !decide (q.2 ≤ s.clock s.tick)),
                availables :=
                  s.availables ++
                    (s.expires.filter (fun q => decide (q.2 ≤ s.clock s.tick))).map Prod.fst }) := by
  show (_, reclaim _ _) = _
  rw [reclaim_eq]
  rw [show removeAll ((s.expires.filter (fun q => decide (q.2 ≤ s.clock s.tick))).map Prod.fst)
        s.expires = s.expires.filter (fun q => !decide (q.2 ≤ s.clock s.tick)) from
      removeAll_filter _ _ h]
  simp

theorem btreeGet_eq_none {k : Nat} (m : List (Nat × Int)) :
    btreeGet k m = none ↔ k ∉ keys m := by
  induction m with
  | nil => simp [btreeGet, keys]
  | cons p rest ih =>
      obtain ⟨k', v'⟩ := p
      by_cases hk : k = k'
      · subst hk; simp [btreeGet, keys]
      · simp [btreeGet, keys, hk, ih]

theorem btreeGet_mem_keys {k : Nat} {v : Int} {m : List (Nat × Int)}
    (h : btreeGet k m = some v) : k ∈ keys m := by
  by_contra hk
  rw [(btreeGet_eq_none m).2 hk] at h
  exact Option.noConfusion h

theorem btreeGet_btreeInsert_self (k : Nat) (v : Int) (m : List (Nat × Int)) :
    btreeGet k (btreeInsert k v m) = some v := by
  induction m with
  | nil => simp [btreeInsert, btreeGet]
  | cons p rest ih =>
      obtain ⟨k', v'⟩ := p
      by_cases h1 : k < k'
      · simp [btreeInsert, h1, btreeGet]
      · by_cases h2 : k = k'
        · simp [btreeInsert, h1, h2, btreeGet]
        · simp [btreeInsert, h1, h2, btreeGet, ih]

theorem mem_keys_btreeInsert {b k : Nat} (v : Int) (m : List (Nat × Int)) :
    b ∈ keys (btreeInsert k v m) ↔ b = k ∨ b ∈ keys m := by
  induction m with
  | nil => simp [btreeInsert, keys]
  | cons p rest ih =>
      obtain ⟨k', v'⟩ := p
      by_cases h1 : k < k'
      · simp [btreeInsert, h1, keys]
      · by_cases h2 : k = k'
        · subst h2
          simp [btreeInsert, h1, keys]
        · have hrec := ih
          simp only [keys] at hrec
          simp [btreeInsert, h1, h2, keys, hrec]
          tauto

theorem keys_btreeInsert_of_mem {k : Nat} (v : Int) {m : List (Nat × Int)}
    (hs : SortedMap m) (hk : k ∈ keys m) : keys (btreeInsert k v m) = keys m := by
  induction m with
  | nil => simp [keys] at hk
  | cons p rest ih =>
      obtain ⟨k', v'⟩ := p
      rw [SortedMap, keys, List.map_cons, List.pairwise_cons] at hs
      obtain ⟨hlt, hs'⟩ := hs
      rcases (by simpa [keys] using hk : k = k' ∨ k ∈ keys rest) with h | h
      · subst h; simp [btreeInsert, lt_irrefl, keys]
      · have hkk' : k' < k := hlt k (by simpa [keys] using h)
        have h1 : ¬ k < k' := by omega
        have h2 : k ≠ k' := by omega
        have hrec := ih hs' h
        simp only [keys] at hrec
        simp [btreeInsert, h1, h2, keys, hrec]

theorem keys_btreeInsert_perm_of_not_mem {k : Nat} (v : Int) {m : List (Nat × Int)}
    (hk : k ∉ keys m) : (keys (btreeInsert k v m)).Perm (k :: keys m) := by
  induction m with
  | nil => simp [btreeInsert, keys]
  | cons p rest ih =>
      obtain ⟨k', v'⟩ := p
      have hkne : k ≠ k' := by
        intro e; exact hk (by simp [keys, e])
      have hrest : k ∉ keys rest := by
        intro h
        exact hk (by rw [keys, List.map_cons]; exact List.mem_cons_of_mem _ h)
      by_cases h1 : k < k'
      · simp [btreeInsert, h1, keys]
      · rw [show btreeInsert k v ((k', v') :: rest) = (k', v') :: btreeInsert k v rest by
              simp [btreeInsert, h1, hkne]]
        rw [keys, List.map_cons]
        exact ((ih hrest).cons k').trans (List.Perm.swap k k' _)

theorem sorted_btreeInsert (k : Nat) (v : Int) {m : List (Nat × Int)}
    (hs : SortedMap m) : SortedMap (btreeInsert k v m) := by
  induction m with
  | nil => simp [btreeInsert, SortedMap, keys]
  | cons p rest ih =>
      obtain ⟨k', v'⟩ := p
      rw [SortedMap, keys, List.map_cons, List.pairwise_cons] at hs
      obtain ⟨hlt, hs'⟩ := hs
      by_cases h1 : k < k'
      · rw [show btreeInsert k v ((k', v') :: rest) = (k, v) :: (k', v') :: rest by
              simp [btreeInsert, h1]]
        rw [SortedMap, keys, List.map_cons, List.map_cons, List.pairwise_cons]
        refine ⟨fun b hb => ?_, List.pairwise_cons.2 ⟨hlt, hs'⟩⟩
        rcases List.mem_cons.1 hb with rfl | hb
        · exact h1
        · exact lt_trans h1 (hlt b hb)
      · by_cases h2 : k = k'
        · subst h2
          rw [show btreeInsert k v ((k, v') :: rest) = (k, v) :: rest by
                simp [btreeInsert, h1]]
          rw [SortedMap, keys, List.map_cons, List.pairwise_cons]
          exact ⟨hlt, hs'⟩
        · rw [show btreeInsert k v ((k', v') :: rest) = (k', v') :: btreeInsert k v rest by
                simp [btreeInsert, h1, h2]]
          rw [SortedMap, keys, List.map_cons, List.pairwise_cons]
          refine ⟨fun b hb => ?_, ih hs'⟩
          rcases (mem_keys_btreeInsert v rest).1 hb with rfl | hb
          · omega
          · exact hlt b hb

theorem btreeInsert_of_forall_lt {k : Nat} (v : Int) {m : List (Nat × Int)}
    (h : ∀ p ∈ m, p.1 < k) : btreeInsert k v m = m ++ [(k, v)] := by
  induction m with
  | nil => rfl
  | cons p rest ih =>
      obtain ⟨k', v'⟩ := p
      have hk' : k' < k := h (k', v') (List.mem_cons_self _ _)
      have h1 : ¬ k < k' := by omega
      have h2 : k ≠ k' := by omega
      simp only [btreeInsert, if_neg h1, if_neg h2]
      rw [ih (fun p hp => h p (List.mem_cons_of_mem _ hp))]
      simp

theorem Partition_of_perm {mn mx : Nat} {s s' : AppState}
    (hp : (s'.availables ++ keys s'.expires).Perm (s.availables ++ keys s.expires))
    (h : Partition mn mx s) : Partition mn mx s' := by
  refine ⟨hp.symm.nodup h.1, fun id => ?_⟩
  rw [← List.mem_append, hp.mem_iff, List.mem_append]
  exact h.2 id

/-- The branch of `get_next_impl` where the Available Queue is empty after
the sweep. -/
theorem get_next_impl_nil (s : AppState) (h : (clear_expired s).2.availables = []) :
    get_next_impl s = (Except.error ERROR_CODE_NO_ID_AVAILBLE, (clear_expired s).2) := by
  simp only [get_next_impl, h]

/-- The branch of `get_next_impl` where the Available Queue is nonempty after
the sweep: its front is leased until `now + timeout`, with `now` the clock
reading taken after the sweep. -/
theorem get_next_impl_cons (s : AppState) (a : Nat) (rest : List Nat)
    (h : (clear_expired s).2.availables = a :: rest) :
    get_next_impl s =
      (Except.ok (a, (clear_expired s).2.clock (clear_expired s).2.tick +
          (clear_expired s).2.timeout),
       { (clear_expired s).2 with
           tick := (clear_expired s).2.tick + 1,
           availables := rest,
           expires := btreeInsert a
             ((clear_expired s).2.clock (clear_expired s).2.tick +
               (clear_expired s).2.timeout)
             (clear_expired s).2.expires }) := by
  simp only [get_next_impl, h]

/-- The branch of `get_heartbeat_impl` where `id` has no lease. -/
theorem get_heartbeat_impl_none (id : Nat) (s : AppState)
    (h : btreeGet id s.expires = none) :
    get_heartbeat_impl id s = (Except.error ERROR_CODE_ID_NONEXISTENT, s) := by
  simp only [get_heartbeat_impl, h]

/-- The branch of `get_heartbeat_impl` where `id` has an unexpired lease:
the lease is refreshed to `now + timeout`. -/
theorem get_heartbeat_impl_live (id : Nat) (s : AppState) (e : Int)
    (h : btreeGet id s.expires = some e) (hl : s.clock s.tick < e) :
    get_heartbeat_impl id s =
      (Except.ok (s.clock s.tick + s.timeout),
       { s with tick := s.tick + 1,
                expires := btreeInsert id (s.clock s.tick + s.timeout) s.expires }) := by
  simp only [get_heartbeat_impl, h]
  rw [if_pos hl]

/-- The branch of `get_heartbeat_impl` where `id` has a lease that already
lapsed: only the error is produced, the pool data is untouched. -/
theorem get_heartbeat_impl_lapsed (id : Nat) (s : AppState) (e : Int)
    (h : btreeGet id s.expires = some e) (hl : e ≤ s.clock s.tick) :
    get_heartbeat_impl id s =
      (Except.error ERROR_CODE_ID_EXPIRED, { s with tick := s.tick + 1 }) := by
  simp only [get_heartbeat_impl, h]
  rw [if_neg (by omega)]

/-- The sweep preserves the invariant. -/
theorem PoolInv_clear_expired {mn mx : Nat} {s : AppState} (h : PoolInv mn mx s) :
    PoolInv mn mx (clear_expired s).2 := by
  obtain ⟨hs, hp⟩ := h
  rw [clear_expired_spec s hs]
  constructor
  · exact List.Pairwise.sublist
      ((List.filter_sublist s.expires).map Prod.fst) hs
  · apply Partition_of_perm ?_ hp
    show ((s.availables ++ _) ++ keys (s.expires.filter _)).Perm _
    rw [List.append_assoc]
    apply List.Perm.append_left
    rw [keys, keys, ← List.map_append]
    exact (List.filter_append_perm _ s.expires).map Prod.fst

/-- Acquisition preserves the invariant. -/
theorem PoolInv_get_next {mn mx : Nat} {s : AppState} (h : PoolInv mn mx s) :
    PoolInv mn mx (get_next_impl s).2 := by
  have h1 : PoolInv mn mx (clear_expired s).2 := PoolInv_clear_expired h
  have hs1 := h1.1
  have hnd := h1.2.1
  cases hav : (clear_expired s).2.availables with
  | nil => rw [get_next_impl_nil s hav]; exact h1
  | cons a rest =>
      rw [get_next_impl_cons s a rest hav]
      rw [hav] at hnd
      have hna : a ∉ rest ++ keys (clear_expired s).2.expires :=
        (List.nodup_cons.1 (by simpa using hnd)).1
      have hnk : a ∉ keys (clear_expired s).2.expires :=
        fun hk => hna (List.mem_append_right _ hk)
      refine ⟨sorted_btreeInsert _ _ hs1, Partition_of_perm ?_ h1.2⟩
      show (rest ++ keys (btreeInsert a _ (clear_expired s).2.expires)).Perm _
      have p1 := (List.Perm.append_left rest
        (keys_btreeInsert_perm_of_not_mem
          ((clear_expired s).2.clock (clear_expired s).2.tick +
            (clear_expired s).2.timeout) hnk)).trans
        (@List.perm_middle _ a rest (keys (clear_expired s).2.expires))
      rw [hav]
      exact p1

/-- Heartbeat preserves the invariant. -/
theorem PoolInv_get_heartbeat {mn mx : Nat} (id : Nat) {s : AppState}
    (h : PoolInv mn mx s) : PoolInv mn mx (get_heartbeat_impl id s).2 := by
  cases hg : btreeGet id s.expires with
  | none => rw [get_heartbeat_impl_none id s hg]; exact h
  | some e =>
      by_cases hl : s.clock s.tick < e
      · rw [get_heartbeat_impl_live id s e hg hl]
        have hk : id ∈ keys s.expires := btreeGet_mem_keys hg
        refine ⟨sorted_btreeInsert _ _ h.1, Partition_of_perm ?_ h.2⟩
        show (s.availables ++
            keys (btreeInsert id (s.clock s.tick + s.timeout) s.expires)).Perm
          (s.availables ++ keys s.expires)
        rw [keys_btreeInsert_of_mem _ h.1 hk]
      · rw [get_heartbeat_impl_lapsed id s e hg (by omega)]
        exact ⟨h.1, Partition_of_perm (List.Perm.refl _) h.2⟩

/-- The freshly constructed pool satisfies the invariant. -/
theorem PoolInv_initState (mn mx : Nat) (t : Int) (clock : Nat → Int) :
    PoolInv mn mx (initState mn mx t clock) := by
  refine ⟨by simp [SortedMap, keys, initState], ?_, ?_⟩
  · show (List.range' mn (mx + 1 - mn) ++ keys []).Nodup
    simpa [keys] using List.nodup_range' mn (mx + 1 - mn)
  · intro id
    show id ∈ List.range' mn (mx + 1 - mn) ∨ id ∈ keys [] ↔ _
    simp only [keys, List.map_nil, List.not_mem_nil, or_false, List.mem_range'_1]
    omega

/-- A sweep on a state in which no lease has lapsed does nothing but read
the clock. -/
theorem clear_expired_no_op (s : AppState)
    (h : ∀ p ∈ s.expires, ¬ p.2 ≤ s.clock s.tick) :
    clear_expired s = (0, { s with tick := s.tick + 1 }) := by
  have hf : s.expires.filter (fun q => decide (q.2 ≤ s.clock s.tick)) = [] :=
    List.filter_eq_nil_iff.2 (fun p hp => by simpa using h p hp)
  show (((s.expires.filter (fun q => decide (q.2 ≤ s.clock s.tick))).map Prod.fst).length,
        reclaim ((s.expires.filter (fun q => decide (q.2 ≤ s.clock s.tick))).map Prod.fst)
          { s with tick := s.tick + 1 }) = _
  rw [hf]
  rfl

/-- Under a clock that never lets a lease lapse, the sweep inside the
`k`-th acquisition reclaims nothing. -/
theorem c6_sweep (mn k N : Nat) (clock : Nat → Int) (t : Int)
    (hne : ∀ i j : Nat, i ≤ j → clock j < clock i + t) :
    clear_expired (c6State mn k N clock t) =
      (0, { c6State mn k N clock t with tick := 2 * k + 1 }) := by
  rw [clear_expired_no_op]
  · rfl
  · intro p hp
    simp only [c6State] at hp
    rcases List.mem_map.1 hp with ⟨i, hi, rfl⟩
    have hi' := List.mem_range'_1.1 hi
    have h1 : 2 * (i - mn) + 1 ≤ 2 * k := by omega
    have h2 := hne (2 * (i - mn) + 1) (2 * k) h1
    simp only [c6State]
    omega

/-- Under a clock that never lets a lease lapse, the `k`-th acquisition from
a fresh pool of `N` identifiers issues identifier `mn + k`. -/
theorem c6_step (mn k N : Nat) (clock : Nat → Int) (t : Int)
    (hne : ∀ i j : Nat, i ≤ j → clock j < clock i + t) (hk : k < N) :
    get_next_impl (c6State mn k N clock t) =
      (Except.ok (mn + k, clock (2 * k + 1) + t), c6State mn (k + 1) N clock t) := by
  have hclear := c6_sweep mn k N clock t hne
  have hav : (clear_expired (c6State mn k N clock t)).2.availables
      = (mn + k) :: List.range' (mn + k + 1) (N - (k + 1)) := by
    rw [hclear]
    show List.range' (mn + k) (N - k) = _
    rw [show N - k = (N - (k + 1)) + 1 by omega, List.range'_succ]
  rw [get_next_impl_cons _ _ _ hav, hclear]
  simp only [c6State]
  rw [btreeInsert_of_forall_lt _ (by
    intro p hp
    rcases List.mem_map.1 hp with ⟨i, hi, rfl⟩
    have := List.mem_range'_1.1 hi
    simpa using by omega)]
  rw [List.range'_1_concat mn k, List.map_append]
  simp [Nat.add_sub_cancel_left]
  omega

/-- Under a clock that never lets a lease lapse, `j` acquisitions starting
after `k` earlier ones issue identifiers `mn+k, …, mn+k+j-1` in order. -/
theorem c6_run (mn N : Nat) (clock : Nat → Int) (t : Int)
    (hne : ∀ i j : Nat, i ≤ j → clock j < clock i + t) :
    ∀ j k, k + j ≤ N →
      acquireN j (c6State mn k N clock t) =
        ((List.range' (mn + k) j).map
           (fun i => Except.ok (i, clock (2 * (i - mn) + 1) + t)),
         c6State mn (k + j) N clock t) := by
  intro j
  induction j with
  | zero => intro k hk; simp [acquireN]
  | succ j ih =>
      intro k hk
      have hkN : k < N := by omega
      show ((get_next_impl (c6State mn k N clock t)).1 ::
              (acquireN j (get_next_impl (c6State mn k N clock t)).2).1,
            (acquireN j (get_next_impl (c6State mn k N clock t)).2).2) = _
      rw [c6_step mn k N clock t hne hkN]
      show (Except.ok (mn + k, clock (2 * k + 1) + t) ::
              (acquireN j (c6State mn (k + 1) N clock t)).1,
            (acquireN j (c6State mn (k + 1) N clock t)).2) = _
      rw [ih (k + 1) (by omega)]
      rw [show k + 1 + j = k + (j + 1) by omega]
      rw [List.range'_succ, List.map_cons]
      simp [Nat.add_sub_cancel_left]
      rfl

/-- The queue after a sweep is the old queue with the reclaimed ids appended
(no sortedness assumption needed). -/
theorem clear_expired_availables (s : AppState) :
    (clear_expired s).2.availables =
      s.availables ++
        (s.expires.filter (fun q => decide (q.2 ≤ s.clock s.tick))).map Prod.fst := by
  show (reclaim _ _).availables = _
  rw [reclaim_eq]

/-- The table after a sweep is the old table with the reclaimed keys removed
(no sortedness assumption needed). -/
theorem clear_expired_expires (s : AppState) :
    (clear_expired s).2.expires =
      removeAll ((s.expires.filter (fun q => decide (q.2 ≤ s.clock s.tick))).map Prod.fst)
        s.expires := by
  show (reclaim _ _).expires = _
  rw [reclaim_eq]

end Lemmas

section Claims

/-- Claim C1 — corrected, counterexample.  The claim states that Heartbeat on
an identifier whose lease has `expiry ≤ now` removes the entry from the Lease
Table and appends the identifier to the back of the Available Queue.  At the
concrete state with `timeout = 10`, Lease Table `{1 ↦ 100}`, Available Queue
`[2]` and the clock fixed at `200` (so the lease of `1` has lapsed),
`get_heartbeat_impl 1` does return `IdExpired`, but it leaves the Lease Table
still equal to `{1 ↦ 100}` and the queue still `[2]`: the entry is neither
removed nor re-queued, refuting the claimed state mutation. -/
theorem heartbeat_expired_counterexample :
    (get_heartbeat_impl 1 (⟨10, [(1, 100)], [2], fun _ => 200, 0⟩ : AppState)).1 =
        Except.error ERROR_CODE_ID_EXPIRED ∧
    (get_heartbeat_impl 1 (⟨10, [(1, 100)], [2], fun _ => 200, 0⟩ : AppState)).2.expires =
        [(1, 100)] ∧
    (get_heartbeat_impl 1 (⟨10, [(1, 100)], [2], fun _ => 200, 0⟩ : AppState)).2.availables =
        [2] ∧
    ¬ ((get_heartbeat_impl 1 (⟨10, [(1, 100)], [2], fun _ => 200, 0⟩ : AppState)).2.expires =
          [] ∧
        (get_heartbeat_impl 1 (⟨10, [(1, 100)], [2], fun _ => 200, 0⟩ : AppState)).2.availables =
          [2, 1]) := by
  refine ⟨rfl, rfl, rfl, ?_⟩
  intro h
  exact absurd h.1 (by decide)

/-- Claim C1 — amended: for every state and every identifier whose Lease
Table entry has `expiry ≤ now`, Heartbeat fails with `IdExpired` and leaves
both the Lease Table and the Available Queue exactly unchanged (the expired
entry is reclaimed only later, by the sweep of a subsequent Acquire). -/
theorem heartbeat_expired_leaves_state (s : AppState) (id : Nat) (e : Int)
    (hget : btreeGet id s.expires = some e) (hexp : e ≤ s.clock s.tick) :
    (get_heartbeat_impl id s).1 = Except.error ERROR_CODE_ID_EXPIRED ∧
    (get_heartbeat_impl id s).2.expires = s.expires ∧
    (get_heartbeat_impl id s).2.availables = s.availables := by
  rw [get_heartbeat_impl_lapsed id s e hget hexp]
  exact ⟨rfl, rfl, rfl⟩

/-- Witness for `heartbeat_expired_leaves_state` at the state of the Rust
test `get_heartbeat_impl_expired` (lease of 1 until 2123, clock at 4123). -/
theorem heartbeat_expired_leaves_state_witness :
    btreeGet 1 ((⟨2000, [(1, 2123)], [2], fun _ => 4123, 0⟩ : AppState)).expires =
        some 2123 ∧
    (2123 : Int) ≤ 4123 ∧
    ((get_heartbeat_impl 1 (⟨2000, [(1, 2123)], [2], fun _ => 4123, 0⟩ : AppState)).1 =
        Except.error ERROR_CODE_ID_EXPIRED ∧
      (get_heartbeat_impl 1 (⟨2000, [(1, 2123)], [2], fun _ => 4123, 0⟩ : AppState)).2.expires =
        [(1, 2123)] ∧
      (get_heartbeat_impl 1 (⟨2000, [(1, 2123)], [2], fun _ => 4123, 0⟩ : AppState)).2.availables =
        [2]) :=
  ⟨rfl, by decide,
   heartbeat_expired_leaves_state ⟨2000, [(1, 2123)], [2], fun _ => 4123, 0⟩ 1 2123
     rfl (by decide)⟩

/-- Claim C2: the closed-partition invariant (every identifier of
`[mn, mx]` is in exactly one of Available Queue and Lease Table, with no
duplicates), together with the `BTreeMap` representation invariant, holds in
the initial state and is preserved by `clear_expired`, `get_next_impl`, and
`get_heartbeat_impl`. -/
theorem closed_partition_invariant (mn mx : Nat) (t : Int) (clock : Nat → Int)
    (s : AppState) (id : Nat) :
    PoolInv mn mx (initState mn mx t clock) ∧
    (PoolInv mn mx s → PoolInv mn mx (clear_expired s).2) ∧
    (PoolInv mn mx s → PoolInv mn mx (get_next_impl s).2) ∧
    (PoolInv mn mx s → PoolInv mn mx (get_heartbeat_impl id s).2) :=
  ⟨PoolInv_initState mn mx t clock, PoolInv_clear_expired, PoolInv_get_next,
   PoolInv_get_heartbeat id⟩

/-- Witness for `closed_partition_invariant`: the invariant of the fresh
pool `[1, 3]` feeds the preservation part for one acquisition. -/
theorem closed_partition_invariant_witness :
    PoolInv 1 3 (initState 1 3 5 (fun _ => 0)) ∧
    PoolInv 1 3 (get_next_impl (initState 1 3 5 (fun _ => 0))).2 :=
  have h := closed_partition_invariant 1 3 5 (fun _ => 0) (initState 1 3 5 (fun _ => 0)) 2
  ⟨h.1, h.2.2.1 h.1⟩

/-- Claim C3: Acquire first runs the sweep; on the swept state it pops the
front of the Available Queue — if that queue is empty it fails with
`NoIdAvailable` (and the state is exactly the swept state), otherwise it
leases the popped identifier until `now + timeout` (with `now` the clock
value read by `get_next_impl` after the sweep), records that pair in the
Lease Table and returns it. -/
theorem acquire_structure (s : AppState) :
    ((clear_expired s).2.availables = [] →
        get_next_impl s = (Except.error ERROR_CODE_NO_ID_AVAILBLE, (clear_expired s).2)) ∧
    (∀ id rest, (clear_expired s).2.availables = id :: rest →
        get_next_impl s =
          (Except.ok (id, (clear_expired s).2.clock (clear_expired s).2.tick +
              (clear_expired s).2.timeout),
           { (clear_expired s).2 with
               tick := (clear_expired s).2.tick + 1,
               availables := rest,
               expires := btreeInsert id
                 ((clear_expired s).2.clock (clear_expired s).2.tick +
                   (clear_expired s).2.timeout)
                 (clear_expired s).2.expires })) :=
  ⟨get_next_impl_nil s, fun id rest h => get_next_impl_cons s id rest h⟩

/-- Witness for `acquire_structure` on the fresh pool `[1, 2]` with the
clock fixed at 100: the front identifier 1 is leased until 105. -/
theorem acquire_structure_witness :
    (clear_expired (initState 1 2 5 (fun _ => 100))).2.availables = 1 :: [2] ∧
    get_next_impl (initState 1 2 5 (fun _ => 100)) =
      (Except.ok (1, 105),
       { timeout := 5, expires := [(1, 105)], availables := [2],
         clock := fun _ => 100, tick := 2 }) :=
  ⟨rfl, (acquire_structure (initState 1 2 5 (fun _ => 100))).2 1 [2] rfl⟩

/-- Claim C4 — code bug.  The spec requires the two uses of "now" inside one
Acquire (one for the sweep, one for the returned expiry) to be the same
sampled clock value, but `get_next_impl` calls `unix_ts_ms` twice: once
inside `clear_expired` (reading number 0 here) and once after popping the
queue (reading number 1).  With the clock trace `n ↦ 200 + n` — the system
clock advancing one millisecond between the two reads — and `timeout = 10`,
the sweep uses `now = 200` while the returned and stored expiry is
`201 + 10 = 211 ≠ 200 + 10`. -/
theorem acquire_samples_clock_twice :
    (get_next_impl (⟨10, [], [1], fun n => 200 + (n : Int), 0⟩ : AppState)).1 =
        Except.ok (1, 211) ∧
    (⟨10, [], [1], fun n => 200 + (n : Int), 0⟩ : AppState).clock
        (⟨10, [], [1], fun n => 200 + (n : Int), 0⟩ : AppState).tick +
        (⟨10, [], [1], fun n => 200 + (n : Int), 0⟩ : AppState).timeout = 210 ∧
    (211 : Int) ≠ 210 :=
  ⟨rfl, rfl, by decide⟩

/-- Claim C5: on a sorted Lease Table, the sweep removes exactly the entries
with `expiry ≤ now` (the surviving entries are the unexpired ones, kept
unchanged and in order), appends the removed identifiers to the back of the
Available Queue in ascending identifier order, and returns the reclaimed
count. -/
theorem sweep_spec (s : AppState) (h : SortedMap s.expires) :
    (clear_expired s).1 =
        (s.expires.filter (fun q => decide (q.2 ≤ s.clock s.tick))).length ∧
    (clear_expired s).2.expires =
        s.expires.filter (fun q => !decide (q.2 ≤ s.clock s.tick)) ∧
    (clear_expired s).2.availables =
        s.availables ++
          (s.expires.filter (fun q => decide (q.2 ≤ s.clock s.tick))).map Prod.fst ∧
    ((s.expires.filter (fun q => decide (q.2 ≤ s.clock s.tick))).map Prod.fst).Pairwise
      (· < ·) := by
  rw [clear_expired_spec s h]
  refine ⟨by simp, rfl, rfl, ?_⟩
  exact List.Pairwise.sublist ((List.filter_sublist s.expires).map Prod.fst) h

/-- Witness for `sweep_spec` at the state of the Rust test
`get_next_impl_expireds`: lease 1 lapsed (`-1877 ≤ 123`), lease 2 live. -/
theorem sweep_spec_witness :
    SortedMap [(1, -1877), (2, 2123)] ∧
    ((clear_expired (⟨2000, [(1, -1877), (2, 2123)], [3], fun _ => 123, 0⟩ : AppState)).1 =
        1 ∧
      (clear_expired (⟨2000, [(1, -1877), (2, 2123)], [3], fun _ => 123, 0⟩ : AppState)).2.expires =
        [(2, 2123)] ∧
      (clear_expired (⟨2000, [(1, -1877), (2, 2123)], [3], fun _ => 123, 0⟩ : AppState)).2.availables =
        [3, 1] ∧
      ([1] : List Nat).Pairwise (· < ·)) :=
  ⟨show (keys [(1, -1877), (2, 2123)]).Pairwise (· < ·) from by decide,
   sweep_spec ⟨2000, [(1, -1877), (2, 2123)], [3], fun _ => 123, 0⟩
     (show (keys [(1, -1877), (2, 2123)]).Pairwise (· < ·) from by decide)⟩

/-- Claim C6: from the initial state of the pool `[mn, mx]` (so `N =
mx + 1 - mn` identifiers), under any clock trace that never lets a lease
lapse (every later reading stays below every earlier reading plus the
timeout), the first `N` Acquire calls all succeed, issuing exactly the `N`
pairwise-distinct identifiers `mn, …, mx` in order, and the `(N+1)`-th
Acquire fails with `NoIdAvailable`. -/
theorem acquire_exhaustion (mn mx : Nat) (clock : Nat → Int) (t : Int)
    (hne : ∀ i j : Nat, i ≤ j → clock j < clock i + t) :
    (acquireN (mx + 1 - mn) (initState mn mx t clock)).1 =
      (List.range' mn (mx + 1 - mn)).map
        (fun i => Except.ok (i, clock (2 * (i - mn) + 1) + t)) ∧
    (List.range' mn (mx + 1 - mn)).Nodup ∧
    (get_next_impl (acquireN (mx + 1 - mn) (initState mn mx t clock)).2).1 =
      Except.error ERROR_CODE_NO_ID_AVAILBLE := by
  have hrun := c6_run mn (mx + 1 - mn) clock t hne (mx + 1 - mn) 0 (by omega)
  have hinit : initState mn mx t clock = c6State mn 0 (mx + 1 - mn) clock t := rfl
  have hav : (clear_expired
      (c6State mn (mx + 1 - mn) (mx + 1 - mn) clock t)).2.availables = [] := by
    rw [c6_sweep mn (mx + 1 - mn) (mx + 1 - mn) clock t hne]
    show List.range' _ ((mx + 1 - mn) - (mx + 1 - mn)) = []
    rw [Nat.sub_self]
    rfl
  refine ⟨?_, List.nodup_range' mn (mx + 1 - mn), ?_⟩
  · rw [hinit, hrun]
    show (List.range' mn (mx + 1 - mn)).map _ = _
    rfl
  · rw [hinit, hrun, Nat.zero_add]
    show (get_next_impl (c6State mn (mx + 1 - mn) (mx + 1 - mn) clock t)).1 = _
    rw [get_next_impl_nil _ hav]

/-- Witness for `acquire_exhaustion`: pool `[1, 3]`, clock fixed at 0,
timeout 2000 — three acquisitions succeed with ids 1, 2, 3 and the fourth
fails. -/
theorem acquire_exhaustion_witness :
    (∀ i j : Nat, i ≤ j → (fun _ : Nat => (0 : Int)) j < (fun _ : Nat => (0 : Int)) i + 2000) ∧
    ((acquireN (3 + 1 - 1) (initState 1 3 2000 (fun _ => 0))).1 =
        (List.range' 1 (3 + 1 - 1)).map (fun i => Except.ok (i, (0 : Int) + 2000)) ∧
      (List.range' 1 (3 + 1 - 1)).Nodup ∧
      (get_next_impl (acquireN (3 + 1 - 1) (initState 1 3 2000 (fun _ => 0))).2).1 =
        Except.error ERROR_CODE_NO_ID_AVAILBLE) :=
  ⟨fun i j h => by show (0 : Int) < 0 + 2000; norm_num,
   acquire_exhaustion 1 3 (fun _ => 0) 2000
     (fun i j h => by show (0 : Int) < 0 + 2000; norm_num)⟩

/-- Claim C7: Heartbeat on an identifier whose lease has `expiry > now`
succeeds, returns the refreshed expiry `now + timeout`, stores that expiry
for `id` in the Lease Table (so `id` remains leased), and — see claim C10 —
touches nothing else. -/
theorem heartbeat_renewal_extends (s : AppState) (id : Nat) (e : Int)
    (hget : btreeGet id s.expires = some e) (hlive : s.clock s.tick < e) :
    (get_heartbeat_impl id s).1 = Except.ok (s.clock s.tick + s.timeout) ∧
    (get_heartbeat_impl id s).2.expires =
      btreeInsert id (s.clock s.tick + s.timeout) s.expires ∧
    btreeGet id (get_heartbeat_impl id s).2.expires =
      some (s.clock s.tick + s.timeout) := by
  rw [get_heartbeat_impl_live id s e hget hlive]
  exact ⟨rfl, rfl, btreeGet_btreeInsert_self _ _ _⟩

/-- Witness for `heartbeat_renewal_extends` at the state of the Rust test
`get_heartbeat_impl_ok` (lease of 1 until 2123, clock at 1123). -/
theorem heartbeat_renewal_extends_witness :
    btreeGet 1 ((⟨2000, [(1, 2123), (2, 2123)], [], fun _ => 1123, 0⟩ : AppState)).expires =
        some 2123 ∧
    (1123 : Int) < 2123 ∧
    ((get_heartbeat_impl 1
          (⟨2000, [(1, 2123), (2, 2123)], [], fun _ => 1123, 0⟩ : AppState)).1 =
        Except.ok (1123 + 2000) ∧
      (get_heartbeat_impl 1
          (⟨2000, [(1, 2123), (2, 2123)], [], fun _ => 1123, 0⟩ : AppState)).2.expires =
        btreeInsert 1 (1123 + 2000) [(1, 2123), (2, 2123)] ∧
      btreeGet 1 (get_heartbeat_impl 1
          (⟨2000, [(1, 2123), (2, 2123)], [], fun _ => 1123, 0⟩ : AppState)).2.expires =
        some (1123 + 2000)) :=
  ⟨rfl, by decide,
   heartbeat_renewal_extends ⟨2000, [(1, 2123), (2, 2123)], [], fun _ => 1123, 0⟩ 1 2123
     rfl (by decide)⟩

/-- Claim C8: whenever Acquire fails with `NoIdAvailable`, the pool data
(Lease Table and Available Queue) after the call equals the data before it,
and the sweep Acquire ran first reclaimed nothing. -/
theorem acquire_failure_no_mutation (s : AppState)
    (h : (get_next_impl s).1 = Except.error ERROR_CODE_NO_ID_AVAILBLE) :
    (get_next_impl s).2.expires = s.expires ∧
    (get_next_impl s).2.availables = s.availables ∧
    (clear_expired s).1 = 0 := by
  cases hav : (clear_expired s).2.availables with
  | cons a rest =>
      rw [get_next_impl_cons s a rest hav] at h
      exact absurd h (by simp [ERROR_CODE_NO_ID_AVAILBLE])
  | nil =>
      have h2 := clear_expired_availables s
      rw [hav] at h2
      have h3 := List.append_eq_nil.1 h2.symm
      have he : (clear_expired s).2.expires = s.expires := by
        rw [clear_expired_expires s, h3.2]
        rfl
      refine ⟨?_, ?_, ?_⟩
      · rw [get_next_impl_nil s hav]
        exact he
      · rw [get_next_impl_nil s hav, hav, h3.1]
      · show ((s.expires.filter (fun q => decide (q.2 ≤ s.clock s.tick))).map
            Prod.fst).length = 0
        rw [h3.2]
        rfl

/-- Witness for `acquire_failure_no_mutation`: empty queue, one live lease —
Acquire fails and touches nothing. -/
theorem acquire_failure_no_mutation_witness :
    (get_next_impl (⟨5, [(1, 10)], [], fun _ => 0, 0⟩ : AppState)).1 =
        Except.error ERROR_CODE_NO_ID_AVAILBLE ∧
    ((get_next_impl (⟨5, [(1, 10)], [], fun _ => 0, 0⟩ : AppState)).2.expires =
        [(1, 10)] ∧
      (get_next_impl (⟨5, [(1, 10)], [], fun _ => 0, 0⟩ : AppState)).2.availables =
        ([] : List Nat) ∧
      (clear_expired (⟨5, [(1, 10)], [], fun _ => 0, 0⟩ : AppState)).1 = 0) :=
  ⟨rfl, acquire_failure_no_mutation ⟨5, [(1, 10)], [], fun _ => 0, 0⟩ rfl⟩

/-- Claim C9: Heartbeat on an identifier with no Lease Table entry (never
leased, already reclaimed, or out of range) fails with `IdNonexistent` and
returns the state completely unchanged — Available Queue, Lease Table, and
even the clock-read counter, since this branch does not read the clock. -/
theorem heartbeat_nonexistent_no_mutation (id : Nat) (s : AppState)
    (h : btreeGet id s.expires = none) :
    get_heartbeat_impl id s = (Except.error ERROR_CODE_ID_NONEXISTENT, s) :=
  get_heartbeat_impl_none id s h

/-- Witness for `heartbeat_nonexistent_no_mutation`: identifier 1 is not
leased (only 2 is). -/
theorem heartbeat_nonexistent_no_mutation_witness :
    btreeGet 1 ((⟨3, [(2, 5)], [1], fun _ => 0, 0⟩ : AppState)).expires = none ∧
    get_heartbeat_impl 1 (⟨3, [(2, 5)], [1], fun _ => 0, 0⟩ : AppState) =
      (Except.error ERROR_CODE_ID_NONEXISTENT,
       (⟨3, [(2, 5)], [1], fun _ => 0, 0⟩ : AppState)) :=
  ⟨rfl, heartbeat_nonexistent_no_mutation 1 ⟨3, [(2, 5)], [1], fun _ => 0, 0⟩ rfl⟩

/-- Claim C10: Heartbeat never modifies the Available Queue — on the renewal
path, the expired path and the nonexistent path alike, the `availables`
sequence after the call equals the one before. -/
theorem heartbeat_preserves_availables (id : Nat) (s : AppState) :
    (get_heartbeat_impl id s).2.availables = s.availables := by
  cases hg : btreeGet id s.expires with
  | none => rw [get_heartbeat_impl_none id s hg]
  | some e =>
      by_cases hl : s.clock s.tick < e
      · rw [get_heartbeat_impl_live id s e hg hl]
      · rw [get_heartbeat_impl_lapsed id s e hg (by omega)]

end Claims
